import Mathlib

/-!
Verification of the typed prefix-keyed store and claim-metadata model of the
scribe repository (src/scribe/db/prefixes.py and src/hub/schema/attrs.py).

Byte strings are modelled as `List Nat` with each element below 256; Python
`str` key components are modelled by their UTF-8 byte sequences, since every
row encodes a name by first taking its UTF-8 bytes.  Fixed-width big-endian
packing (`struct.pack` with formats `>B >H >L >Q`) is `beBytes`; Python
`int.from_bytes(..., 'big')` is `beToNat`.  Fallible decoding returns
`Option`; raised exceptions are `none` (or a `false` success flag where the
partially mutated state matters).
-/

/-- Big-endian fixed-width encoding of a natural number: `beBytes k n` is the
`k`-byte big-endian encoding of `n` (the low `8*k` bits of `n`). -/
def beBytes : Nat → Nat → List Nat
  | 0, _ => []
  | k + 1, n => beBytes k (n / 256) ++ [n % 256]

/-- Big-endian interpretation of a byte list, as in `int.from_bytes(b, 'big')`;
the empty list decodes to `0`. -/
def beToNat (bs : List Nat) : Nat :=
  bs.foldl (fun acc b => acc * 256 + b) 0

/-- Strict lexicographic (bytewise, RocksDB-comparator) order on byte lists. -/
def bytesLt : List Nat → List Nat → Bool
  | [], [] => false
  | [], _ :: _ => true
  | _ :: _, [] => false
  | a :: as, b :: bs => if a < b then true else if b < a then false else bytesLt as bs

/-- `length_encoded_name` from src/scribe/db/prefixes.py: a 2-byte big-endian
length followed by the UTF-8 bytes of the name. -/
def length_encoded_name (name : List Nat) : List Nat :=
  beBytes 2 name.length ++ name

/-- Python `struct.pack('>20s', h)`: the bytes truncated or zero-padded on the
right to exactly 20 bytes. -/
def pack20 (h : List Nat) : List Nat :=
  h.take 20 ++ List.replicate (20 - h.length) 0

theorem beBytes_length (k n : Nat) : (beBytes k n).length = k := by
  induction k generalizing n with
  | zero => rfl
  | succ k ih => simp [beBytes, ih]

theorem bytesLt_cons_same (c : Nat) (x y : List Nat) :
    bytesLt (c :: x) (c :: y) = bytesLt x y := by
  simp [bytesLt]

theorem bytesLt_append_same (u x y : List Nat) :
    bytesLt (u ++ x) (u ++ y) = bytesLt x y := by
  induction u with
  | nil => rfl
  | cons c u ih => simpa [bytesLt_cons_same] using ih

theorem bytesLt_append_of_lt (x y s t : List Nat) (hlen : x.length = y.length)
    (h : bytesLt x y = true) : bytesLt (x ++ s) (y ++ t) = true := by
  induction x generalizing y with
  | nil =>
    cases y with
    | nil => simpa [bytesLt] using h
    | cons b bs => simp at hlen
  | cons a as ih =>
    cases y with
    | nil => simp at hlen
    | cons b bs =>
      simp only [bytesLt, List.cons_append] at h ⊢
      by_cases hab : a < b
      · simp [hab]
      · by_cases hba : b < a
        · simp [hab, hba] at h
        · simp only [hab, hba, if_false] at h ⊢
          exact ih bs (by simpa using hlen) h

theorem beBytes_lt (k a b : Nat) (hab : a < b) (hb : b < 256 ^ k) :
    bytesLt (beBytes k a) (beBytes k b) = true := by
  induction k generalizing a b with
  | zero => omega
  | succ k ih =>
    have hq : a / 256 ≤ b / 256 := Nat.div_le_div_right (Nat.le_of_lt hab)
    rcases Nat.lt_or_ge (a / 256) (b / 256) with hlt | hge
    · have hb' : b / 256 < 256 ^ k := by
        rw [Nat.div_lt_iff_lt_mul (by norm_num)]
        calc b < 256 ^ (k + 1) := hb
          _ = 256 ^ k * 256 := by ring
      exact bytesLt_append_of_lt _ _ _ _
        (by rw [beBytes_length, beBytes_length]) (ih _ _ hlt hb')
    · have heq : a / 256 = b / 256 := Nat.le_antisymm hq hge
      have hmod : a % 256 < b % 256 := by
        have ha' := Nat.div_add_mod a 256
        have hb' := Nat.div_add_mod b 256
        omega
      show bytesLt (beBytes k (a / 256) ++ [a % 256])
          (beBytes k (b / 256) ++ [b % 256]) = true
      rw [heq, bytesLt_append_same]
      simp [bytesLt, hmod]

/-! ## The effective_amount row (`EffectiveAmountPrefixRow`)

`DB_PREFIXES` lives in scribe/db/common.py which is not part of this slice;
the spec only requires each row to own one distinct tag byte.  Modelled from
the spec: the `effective_amount` prefix tag, one fixed byte. -/

def EffectiveAmountPrefixRow.tag : Nat := 68

/-- `EffectiveAmountPrefixRow.pack_key`: tag byte, length-prefixed name, then
`struct.pack('>QLH', 0xffffffffffffffff - effective_amount, tx_num, position)`. -/
def EffectiveAmountPrefixRow.pack_key
    (name : List Nat) (effective_amount tx_num position : Nat) : List Nat :=
  EffectiveAmountPrefixRow.tag ::
    (length_encoded_name name ++ beBytes 8 (0xffffffffffffffff - effective_amount) ++
      beBytes 4 tx_num ++ beBytes 2 position)

/-- `shortid_key_helper(b'>Q')`, the level-2 entry of
`EffectiveAmountPrefixRow.key_part_lambdas`: length-prefixed name followed by
the raw (non-inverted) amount as big-endian u64. -/
def EffectiveAmountPrefixRow.key_part2 (name : List Nat) (amount : Nat) : List Nat :=
  length_encoded_name name ++ beBytes 8 amount

/-- `effective_amount_helper(b'>Q')` applied to `(name, amount)`: the helper
defined directly above `EffectiveAmountPrefixRow` in the source (but not
referenced by its `key_part_lambdas`), which applies the ones-complement
`0xffffffffffffffff - amount` before packing. -/
def effective_amount_helper2 (name : List Nat) (amount : Nat) : List Nat :=
  length_encoded_name name ++ beBytes 8 (0xffffffffffffffff - amount)

/-- Modelled from the spec: `key_part(i, args…)` builds the partial key used to
seek, i.e. the row's tag byte followed by the output of `key_part_lambdas[i]`
(the builder table itself is in src; only the tag prepend is from the spec's
row contract, the base class living outside this slice). -/
def EffectiveAmountPrefixRow.pack_partial_key2 (name : List Nat) (amount : Nat) : List Nat :=
  EffectiveAmountPrefixRow.tag :: EffectiveAmountPrefixRow.key_part2 name amount

/-- Spec-modelled partial key built from the unused `effective_amount_helper`. -/
def EffectiveAmountPrefixRow.helper_partial_key2 (name : List Nat) (amount : Nat) : List Nat :=
  EffectiveAmountPrefixRow.tag :: effective_amount_helper2 name amount

/-- C1: for the effective_amount row, the level-2 partial-key builder applied to
`(name, amount)` is claimed to produce a byte-prefix of
`pack_key(name, amount, tx_num, position)`.  The code violates this: the
builder table uses `shortid_key_helper(b'>Q')`, which packs the raw amount,
while `pack_key` packs `0xffffffffffffffff - amount`.  At name `"a"` (UTF-8
`[97]`), amount `0`, tx_num `0`, position `0`, the builder output is not a
prefix of the packed key, whereas the ones-complement helper defined directly
above the class (and left unused) does produce a prefix — evidence that the
spec states the intent and the code has a slip. -/
theorem c1_effective_amount_partial_key_mismatch :
    (EffectiveAmountPrefixRow.pack_partial_key2 [97] 0).isPrefixOf
      (EffectiveAmountPrefixRow.pack_key [97] 0 0 0) = false ∧
    (EffectiveAmountPrefixRow.helper_partial_key2 [97] 0).isPrefixOf
      (EffectiveAmountPrefixRow.pack_key [97] 0 0 0) = true := by
  constructor <;> decide

/-- C3: for a fixed name, a larger effective amount packs to a lexicographically
smaller key, for all u64 amounts and all in-range `(tx_num, position)` pairs;
the inverse-BE block decides the comparison before the tie-break fields. -/
theorem c3_effective_amount_descending
    (name : List Nat) (a1 a2 t1 p1 t2 p2 : Nat)
    (hname : name.length < 2 ^ 16)
    (ha : a2 < a1) (ha1 : a1 ≤ 0xffffffffffffffff)
    (ht1 : t1 < 2 ^ 32) (hp1 : p1 < 2 ^ 16)
    (ht2 : t2 < 2 ^ 32) (hp2 : p2 < 2 ^ 16) :
    bytesLt (EffectiveAmountPrefixRow.pack_key name a1 t1 p1)
      (EffectiveAmountPrefixRow.pack_key name a2 t2 p2) = true := by
  unfold EffectiveAmountPrefixRow.pack_key
  rw [bytesLt_cons_same]
  have hassoc : ∀ x y z : List Nat, length_encoded_name name ++ x ++ y ++ z =
      length_encoded_name name ++ (x ++ (y ++ z)) := by
    intro x y z
    simp [List.append_assoc]
  rw [hassoc, hassoc, bytesLt_append_same]
  apply bytesLt_append_of_lt
  · rw [beBytes_length, beBytes_length]
  · apply beBytes_lt
    · omega
    · norm_num
      omega

/-- C3 witness: the descending-order theorem at a concrete instance. -/
theorem c3_effective_amount_descending_witness :
    bytesLt (EffectiveAmountPrefixRow.pack_key [97] 5 7 1)
      (EffectiveAmountPrefixRow.pack_key [97] 3 2 0) = true :=
  c3_effective_amount_descending [97] 5 3 7 1 2 0 (by decide) (by decide)
    (by decide) (by decide) (by decide) (by decide) (by decide)

/-! ## The channel_to_claim row (`ChannelToClaimPrefixRow`)

Its `key_part_lambdas` has six entries; the entry at index 3 is
`channel_to_claim_helper(b'>s')`.  Python `struct.pack('>s', x)` packs exactly
one byte: it requires a `bytes` argument (an `int` raises `struct.error`) and
emits `x[:1]` zero-padded to one byte.  A partial-key argument that may be
either a byte string (accepted by `'>s'`) or an integer key component
(rejected) is modelled by `StructArg`. -/

inductive StructArg where
  | bytesA : List Nat → StructArg
  | intA : Nat → StructArg

/-- Python `struct.pack('>s', ·)`: one byte from a bytes argument (truncated or
zero-padded to length 1); a non-bytes argument raises `struct.error`. -/
def pack_s : StructArg → Option (List Nat)
  | .bytesA bs => some ((bs ++ [0]).take 1)
  | .intA _ => none

/-- Modelled from the spec: the `channel_to_claim` prefix tag byte
(`DB_PREFIXES` is outside this slice). -/
def ChannelToClaimPrefixRow.tag : Nat := 74

/-- `ChannelToClaimPrefixRow.pack_key`: tag, raw 20-byte signing hash,
length-prefixed name, then `struct.pack('>LH', tx_num, position)`. -/
def ChannelToClaimPrefixRow.pack_key
    (signing_hash name : List Nat) (tx_num position : Nat) : List Nat :=
  ChannelToClaimPrefixRow.tag ::
    (signing_hash ++ length_encoded_name name ++ beBytes 4 tx_num ++ beBytes 2 position)

/-- `key_part_lambdas[0]`: the empty partial key. -/
def ChannelToClaimPrefixRow.key_part0 : List Nat := []

/-- `key_part_lambdas[1] = struct.Struct(b'>20s').pack`. -/
def ChannelToClaimPrefixRow.key_part1 (signing_hash : List Nat) : List Nat :=
  pack20 signing_hash

/-- `key_part_lambdas[2] = channel_to_claim_helper(b'')`: raw signing hash and
length-prefixed name. -/
def ChannelToClaimPrefixRow.key_part2 (signing_hash name : List Nat) : List Nat :=
  signing_hash ++ length_encoded_name name

/-- `key_part_lambdas[3] = channel_to_claim_helper(b'>s')`: signing hash,
length-prefixed name, then one `'>s'`-packed byte; fails (`struct.error`) on an
integer third component. -/
def ChannelToClaimPrefixRow.key_part3 (signing_hash name : List Nat) (x : StructArg) :
    Option (List Nat) :=
  (pack_s x).map (fun bs => signing_hash ++ length_encoded_name name ++ bs)

/-- `key_part_lambdas[4] = channel_to_claim_helper(b'>L')`. -/
def ChannelToClaimPrefixRow.key_part4 (signing_hash name : List Nat) (tx_num : Nat) : List Nat :=
  signing_hash ++ length_encoded_name name ++ beBytes 4 tx_num

/-- `key_part_lambdas[5] = channel_to_claim_helper(b'>LH')`. -/
def ChannelToClaimPrefixRow.key_part5
    (signing_hash name : List Nat) (tx_num position : Nat) : List Nat :=
  signing_hash ++ length_encoded_name name ++ beBytes 4 tx_num ++ beBytes 2 position

/-- `s` is a strict byte-prefix of `t`. -/
def isStrictPrefixOfB (s t : List Nat) : Bool :=
  s.isPrefixOf t && decide (s.length < t.length)

/-- Whether an optional builder output is a byte-prefix of `t`; a builder that
raised (`none`) produced no prefix. -/
def optIsPrefixOfB (o : Option (List Nat)) (t : List Nat) : Bool :=
  match o with
  | some s => s.isPrefixOf t
  | none => false

theorem isPrefixOf_append_self (x y : List Nat) : x.isPrefixOf (x ++ y) = true := by
  induction x with
  | nil => simp [List.isPrefixOf]
  | cons a as ih => simpa [List.isPrefixOf] using ih

theorem isStrictPrefixOfB_append (x y : List Nat) (hy : y ≠ []) :
    isStrictPrefixOfB x (x ++ y) = true := by
  have hlen : 0 < y.length := List.length_pos.mpr hy
  simp [isStrictPrefixOfB, isPrefixOf_append_self, hlen]

theorem length_encoded_name_ne_nil (name : List Nat) : length_encoded_name name ≠ [] := by
  simp [length_encoded_name, beBytes]

/-- C4 counterexample: for the channel_to_claim row, the level-3 builder applied
to the leading key components (signing hash, name, tx_num) does not produce a
byte-prefix of the level-4 builder's output on the same leading components —
`struct.pack('>s', tx_num)` raises `struct.error` on the integer component, so
level 3 yields no output at all. -/
theorem c4_channel_to_claim_level3_not_prefix :
    optIsPrefixOfB
      (ChannelToClaimPrefixRow.key_part3 (List.replicate 20 1) [97] (.intA 0))
      (ChannelToClaimPrefixRow.key_part4 (List.replicate 20 1) [97] 0) = false := by
  decide

/-- C4 amended: the strict-prefix property holds between successive
channel_to_claim builders at levels 0, 1, 2, 4, 5 (hence, by transitivity of
strict prefixes, for every pair `i < j` drawn from those levels), and level 3
extends level 2 by one byte when given a byte-string argument; but level 3
rejects the integer `tx_num` key component outright (`struct.error`), so the
property cannot hold between level 3 and the longer builders applied to the
row's own key components. -/
theorem c4_channel_to_claim_builder_chain
    (h name : List Nat) (t p : Nat) (bs : List Nat) (hh : h.length = 20) :
    isStrictPrefixOfB ChannelToClaimPrefixRow.key_part0
      (ChannelToClaimPrefixRow.key_part1 h) = true ∧
    isStrictPrefixOfB (ChannelToClaimPrefixRow.key_part1 h)
      (ChannelToClaimPrefixRow.key_part2 h name) = true ∧
    isStrictPrefixOfB (ChannelToClaimPrefixRow.key_part2 h name)
      (ChannelToClaimPrefixRow.key_part4 h name t) = true ∧
    isStrictPrefixOfB (ChannelToClaimPrefixRow.key_part4 h name t)
      (ChannelToClaimPrefixRow.key_part5 h name t p) = true ∧
    ChannelToClaimPrefixRow.key_part3 h name (.bytesA bs) =
      some (ChannelToClaimPrefixRow.key_part2 h name ++ (bs ++ [0]).take 1) ∧
    ChannelToClaimPrefixRow.key_part3 h name (.intA t) = none := by
  have hp20 : pack20 h = h := by
    rw [pack20, hh]
    simp [List.take_of_length_le (le_of_eq hh)]
  refine ⟨?_, ?_, ?_, ?_, ?_, rfl⟩
  · rw [ChannelToClaimPrefixRow.key_part1, hp20]
    show isStrictPrefixOfB ([] ++ []) ([] ++ h) = true
    apply isStrictPrefixOfB_append
    intro hnil
    rw [hnil] at hh
    simp at hh
  · rw [ChannelToClaimPrefixRow.key_part1, hp20, ChannelToClaimPrefixRow.key_part2]
    exact isStrictPrefixOfB_append _ _ (length_encoded_name_ne_nil name)
  · rw [ChannelToClaimPrefixRow.key_part2, ChannelToClaimPrefixRow.key_part4]
    apply isStrictPrefixOfB_append
    simp [beBytes]
  · rw [ChannelToClaimPrefixRow.key_part4, ChannelToClaimPrefixRow.key_part5]
    apply isStrictPrefixOfB_append
    simp [beBytes]
  · rfl

/-- C4 amended witness: the builder chain at concrete arguments. -/
theorem c4_channel_to_claim_builder_chain_witness :
    isStrictPrefixOfB (ChannelToClaimPrefixRow.key_part2 (List.replicate 20 1) [97])
      (ChannelToClaimPrefixRow.key_part4 (List.replicate 20 1) [97] 3) = true ∧
    ChannelToClaimPrefixRow.key_part3 (List.replicate 20 1) [97] (.intA 3) = none :=
  ⟨(c4_channel_to_claim_builder_chain (List.replicate 20 1) [97] 3 0 [] (by decide)).2.2.1,
   (c4_channel_to_claim_builder_chain (List.replicate 20 1) [97] 3 0 [] (by decide)).2.2.2.2.2⟩

/-! ## Slice stability

Python slicing `data[a:b]` ignores anything beyond the requested range, so a
slice wholly inside `l` is unaffected by appending extra bytes. -/

theorem slice_append_stable (l e : List Nat) (k n : Nat) (h : k + n ≤ l.length) :
    ((l ++ e).drop k).take n = (l.drop k).take n := by
  have hk : k ≤ l.length := by omega
  rw [List.drop_append_eq_append_drop, Nat.sub_eq_zero_of_le hk, List.drop_zero,
    List.take_append_eq_append_take]
  have hn : n ≤ (l.drop k).length := by
    rw [List.length_drop]
    omega
  rw [Nat.sub_eq_zero_of_le hn]
  simp

theorem take_append_stable (l e : List Nat) (n : Nat) (h : n ≤ l.length) :
    (l ++ e).take n = l.take n := by
  have := slice_append_stable l e 0 n (by omega)
  simpa using this

/-! ## UTF-8 validation

Python `bytes.decode()` (strict UTF-8) accepts exactly the well-formed
sequences: no overlong encodings, no surrogates, nothing above U+10FFFF. -/

/-- A UTF-8 continuation byte. -/
def isCont (b : Nat) : Bool := 0x80 ≤ b && b ≤ 0xbf

/-- Strict UTF-8 validity, as checked by Python `bytes.decode()`. -/
def isValidUtf8 : List Nat → Bool
  | [] => true
  | b :: rest =>
    if b ≤ 0x7f then isValidUtf8 rest
    else
      match rest with
      | [] => false
      | c1 :: r1 =>
        if 0xc2 ≤ b && b ≤ 0xdf then isCont c1 && isValidUtf8 r1
        else
          match r1 with
          | [] => false
          | c2 :: r2 =>
            if b == 0xe0 then (0xa0 ≤ c1 && c1 ≤ 0xbf) && isCont c2 && isValidUtf8 r2
            else if (0xe1 ≤ b && b ≤ 0xec) || b == 0xee || b == 0xef then
              isCont c1 && isCont c2 && isValidUtf8 r2
            else if b == 0xed then (0x80 ≤ c1 && c1 ≤ 0x9f) && isCont c2 && isValidUtf8 r2
            else
              match r2 with
              | [] => false
              | c3 :: r3 =>
                if b == 0xf0 then
                  (0x90 ≤ c1 && c1 ≤ 0xbf) && isCont c2 && isCont c3 && isValidUtf8 r3
                else if 0xf1 ≤ b && b ≤ 0xf3 then
                  isCont c1 && isCont c2 && isCont c3 && isValidUtf8 r3
                else if b == 0xf4 then
                  (0x80 ≤ c1 && c1 ≤ 0x8f) && isCont c2 && isCont c3 && isValidUtf8 r3
                else false

/-! ## The claim_to_txo row (`ClaimToTXOPrefixRow`) value codec -/

/-- `ClaimToTXOValue`: the decoded value of the claim_to_txo row.  The name is
kept as its UTF-8 bytes. -/
structure ClaimToTXOValueV where
  tx_num : Nat
  position : Nat
  root_tx_num : Nat
  root_position : Nat
  amount : Nat
  channel_signature_is_valid : Bool
  name : List Nat
deriving DecidableEq

/-- `ClaimToTXOPrefixRow.pack_value`: `struct.pack('>LHLHQB', ...)` followed by
the length-prefixed name. -/
def ClaimToTXOPrefixRow.pack_value
    (tx_num position root_tx_num root_position amount : Nat) (sig : Bool)
    (name : List Nat) : List Nat :=
  beBytes 4 tx_num ++ beBytes 2 position ++ beBytes 4 root_tx_num ++
    beBytes 2 root_position ++ beBytes 8 amount ++ [if sig then 1 else 0] ++
    length_encoded_name name

/-- `ClaimToTXOPrefixRow.unpack_value`: `value_struct.unpack(data[:21])` (which
raises unless at least 21 bytes are available), then the name length from bytes
21..22, then `data[23:23+name_len].decode()`.  Python slicing silently ignores
any bytes past `23 + name_len`; only a too-short fixed part or invalid UTF-8
raises. -/
def ClaimToTXOPrefixRow.unpack_value (data : List Nat) : Option ClaimToTXOValueV :=
  if data.length < 21 then none
  else if isValidUtf8 ((data.drop 23).take (beToNat ((data.drop 21).take 2))) then
    some ⟨beToNat (data.take 4), beToNat ((data.drop 4).take 2),
      beToNat ((data.drop 6).take 4), beToNat ((data.drop 10).take 2),
      beToNat ((data.drop 12).take 8), beToNat ((data.drop 20).take 1) != 0,
      (data.drop 23).take (beToNat ((data.drop 21).take 2))⟩
  else none

/-- C7 counterexample: `unpack_value` does not raise on trailing residue.  The
packed value for `(1, 2, 3, 4, 5, True, "a")` decodes identically with and
without an extra trailing byte `0xAB`, refuting the claim that any input with
extra bytes after the name's stated length is rejected. -/
theorem c7_claim_to_txo_trailing_bytes_accepted :
    ClaimToTXOPrefixRow.unpack_value
        (ClaimToTXOPrefixRow.pack_value 1 2 3 4 5 true [97] ++ [171]) =
      some ⟨1, 2, 3, 4, 5, true, [97]⟩ ∧
    ClaimToTXOPrefixRow.unpack_value (ClaimToTXOPrefixRow.pack_value 1 2 3 4 5 true [97]) =
      some ⟨1, 2, 3, 4, 5, true, [97]⟩ := by
  constructor <;> decide

/-- C7 amended: the decoded name consumes exactly the length stated by its
2-byte prefix, and any bytes past `23 + name_len` are silently ignored rather
than rejected: appending arbitrary extra bytes to an input that already covers
the stated name length leaves `unpack_value` unchanged. -/
theorem c7_claim_to_txo_residue_ignored (data extra : List Nat)
    (h : 23 + beToNat ((data.drop 21).take 2) ≤ data.length) :
    ClaimToTXOPrefixRow.unpack_value (data ++ extra) =
      ClaimToTXOPrefixRow.unpack_value data := by
  have hL : ¬ ((data ++ extra).length < 21) := by
    rw [List.length_append]
    omega
  have hR : ¬ (data.length < 21) := by omega
  have s21 : ((data ++ extra).drop 21).take 2 = (data.drop 21).take 2 :=
    slice_append_stable data extra 21 2 (by omega)
  simp only [ClaimToTXOPrefixRow.unpack_value, if_neg hL, if_neg hR, s21]
  rw [slice_append_stable data extra 23 _ h,
    take_append_stable data extra 4 (by omega),
    slice_append_stable data extra 4 2 (by omega),
    slice_append_stable data extra 6 4 (by omega),
    slice_append_stable data extra 10 2 (by omega),
    slice_append_stable data extra 12 8 (by omega),
    slice_append_stable data extra 20 1 (by omega)]

/-- C7 amended witness: the residue-ignoring theorem at a concrete packed value
with one trailing byte. -/
theorem c7_claim_to_txo_residue_ignored_witness :
    ClaimToTXOPrefixRow.unpack_value
        (ClaimToTXOPrefixRow.pack_value 9 8 7 6 5 false [98, 99] ++ [1, 2, 3]) =
      ClaimToTXOPrefixRow.unpack_value (ClaimToTXOPrefixRow.pack_value 9 8 7 6 5 false [98, 99]) :=
  c7_claim_to_txo_residue_ignored _ [1, 2, 3] (by decide)

/-! ## The db_state row (`DBStatePrefixRow`) value codec -/

/-- Python `struct.pack('>Ns', h)`: bytes truncated or right-zero-padded to
exactly `w` bytes. -/
def packFixed (w : Nat) (h : List Nat) : List Nat :=
  h.take w ++ List.replicate (w - h.length) 0

/-- Python `struct.pack('>l', i)` for an in-range signed 32-bit integer:
big-endian two's complement. -/
def sbe4 (i : Int) : List Nat :=
  beBytes 4 (i % 4294967296).toNat

/-- Signed interpretation of an unsigned 32-bit value (`struct.unpack('>l')`). -/
def sInt (x : Nat) : Int :=
  if x < 2147483648 then (x : Int) else (x : Int) - 4294967296

/-- `DBState`: the decoded db_state singleton.  `catching_up` is kept as the
raw decoded byte, as `DBState(*unpack(...))` performs no bool conversion. -/
structure DBStateV where
  genesis : List Nat
  height : Nat
  tx_count : Nat
  tip : List Nat
  utxo_flush_count : Nat
  wall_time : Nat
  catching_up : Nat
  db_version : Nat
  hist_flush_count : Int
  comp_flush_count : Int
  comp_cursor : Int
  es_sync_height : Nat
deriving DecidableEq

/-- The 98-byte layout `'>32sLL32sLLBBlllL'` of the db_state value;
`struct.unpack` rejects any other length. -/
def dbStateUnpack98 (d : List Nat) : Option DBStateV :=
  if d.length = 98 then
    some ⟨d.take 32, beToNat ((d.drop 32).take 4), beToNat ((d.drop 36).take 4),
      (d.drop 40).take 32, beToNat ((d.drop 72).take 4), beToNat ((d.drop 76).take 4),
      beToNat ((d.drop 80).take 1), beToNat ((d.drop 81).take 1),
      sInt (beToNat ((d.drop 82).take 4)), sInt (beToNat ((d.drop 86).take 4)),
      sInt (beToNat ((d.drop 90).take 4)), beToNat ((d.drop 94).take 4)⟩
  else none

/-- `DBStatePrefixRow.unpack_value`: a 94-byte legacy record first has its
bytes `[32:36]` appended (migrating `es_sync_height` in from the stored
height), then the 98-byte layout is decoded. -/
def DBStatePrefixRow.unpack_value (data : List Nat) : Option DBStateV :=
  dbStateUnpack98 (if data.length = 94 then data ++ (data.drop 32).take 4 else data)

/-- `DBStatePrefixRow.pack_value`: always the 98-byte `'>32sLL32sLLBBlllL'`
form, with `catching_up` written as `1 if catching_up else 0`. -/
def DBStatePrefixRow.pack_value (genesis : List Nat) (height tx_count : Nat)
    (tip : List Nat) (utxo_flush_count wall_time : Nat) (catching_up : Bool)
    (db_version : Nat) (hist_flush_count comp_flush_count comp_cursor : Int)
    (es_sync_height : Nat) : List Nat :=
  packFixed 32 genesis ++ beBytes 4 height ++ beBytes 4 tx_count ++ packFixed 32 tip ++
    beBytes 4 utxo_flush_count ++ beBytes 4 wall_time ++ [if catching_up then 1 else 0] ++
    beBytes 1 db_version ++ sbe4 hist_flush_count ++ sbe4 comp_flush_count ++
    sbe4 comp_cursor ++ beBytes 4 es_sync_height

theorem packFixed_length (w : Nat) (h : List Nat) : (packFixed w h).length = w := by
  simp [packFixed]
  omega

/-- C8: a 94-byte legacy db_state record decodes exactly as the 98-byte record
obtained by appending its bytes `[32:36]`, the migrated `es_sync_height` then
equals the stored height, and `pack_value` emits exactly 98 bytes for every
admissible combination of field values. -/
theorem c8_db_state_legacy_shim (data : List Nat) (h94 : data.length = 94) :
    DBStatePrefixRow.unpack_value data =
      DBStatePrefixRow.unpack_value (data ++ (data.drop 32).take 4) ∧
    (∀ st, DBStatePrefixRow.unpack_value data = some st →
      st.es_sync_height = st.height) ∧
    (∀ (genesis tip : List Nat) (height tx_count utxo wall dbv es : Nat) (cu : Bool)
      (h1 h2 h3 : Int), genesis.length = 32 → tip.length = 32 → height < 2 ^ 32 →
      tx_count < 2 ^ 32 → utxo < 2 ^ 32 → wall < 2 ^ 32 → dbv < 256 → es < 2 ^ 32 →
      -2 ^ 31 ≤ h1 → h1 < 2 ^ 31 → -2 ^ 31 ≤ h2 → h2 < 2 ^ 31 →
      -2 ^ 31 ≤ h3 → h3 < 2 ^ 31 →
      (DBStatePrefixRow.pack_value genesis height tx_count tip utxo wall cu dbv
        h1 h2 h3 es).length = 98) := by
  have happ : ((data.drop 32).take 4).length = 4 := by
    rw [List.length_take, List.length_drop, h94]
    omega
  have hlen98 : (data ++ (data.drop 32).take 4).length = 98 := by
    rw [List.length_append, h94, happ]
  refine ⟨?_, ?_, ?_⟩
  · rw [DBStatePrefixRow.unpack_value, DBStatePrefixRow.unpack_value, if_pos h94,
      if_neg (by omega)]
  · intro st hst
    rw [DBStatePrefixRow.unpack_value, if_pos h94, dbStateUnpack98, if_pos hlen98] at hst
    have hdata94 : data.drop 94 = [] := List.drop_eq_nil_of_le (by omega)
    have hdrop94 : (data ++ (data.drop 32).take 4).drop 94 = (data.drop 32).take 4 := by
      rw [List.drop_append_eq_append_drop, h94, Nat.sub_self, List.drop_zero, hdata94,
        List.nil_append]
    have hes : ((data ++ (data.drop 32).take 4).drop 94).take 4 = (data.drop 32).take 4 := by
      rw [hdrop94, List.take_take]
      norm_num
    have hheight : ((data ++ (data.drop 32).take 4).drop 32).take 4 = (data.drop 32).take 4 :=
      slice_append_stable data _ 32 4 (by omega)
    cases hst
    simp [hes, hheight]
  · intro genesis tip height tx_count utxo wall dbv es cu h1 h2 h3 _ _ _ _ _ _ _ _ _ _ _ _ _ _
    simp [DBStatePrefixRow.pack_value, packFixed_length, beBytes_length, sbe4]

/-- C8 witness: the legacy shim theorem at the all-zero 94-byte record and a
concrete admissible pack_value call. -/
theorem c8_db_state_legacy_shim_witness :
    DBStatePrefixRow.unpack_value (List.replicate 94 0) =
      DBStatePrefixRow.unpack_value
        (List.replicate 94 0 ++ ((List.replicate 94 0).drop 32).take 4) ∧
    (DBStatePrefixRow.pack_value (List.replicate 32 2) 10 11 (List.replicate 32 3)
      12 13 true 1 (-1) 0 1 14).length = 98 :=
  ⟨(c8_db_state_legacy_shim (List.replicate 94 0) (by decide)).1,
   (c8_db_state_legacy_shim (List.replicate 94 0) (by decide)).2.2
    (List.replicate 32 2) (List.replicate 32 3) 10 11 12 13 1 14 true (-1) 0 1
    (by decide) (by decide) (by decide) (by decide) (by decide) (by decide)
    (by decide) (by decide) (by decide) (by decide) (by decide) (by decide)
    (by decide) (by decide)⟩

/-! ## The extension-struct merge (`Struct.merge` in src/hub/schema/attrs.py)

A protobuf `Struct` is a string-keyed map of `Value`s; a `Value` is one of the
oneof kinds null / number / string / bool / struct / list.  `fields` is
modelled as an association list in insertion order (Python dicts preserve it);
the number kind carries the values the claims exercise (merge only ever tests
values for equality).

`Struct.merge` recurses into a nested struct field with
`Struct(my_value).merge(v.struct_value, ...)`, whose first statement reads
`other.message.fields` on a raw protobuf `Struct` — which has no `message`
attribute, so the recursion raises `AttributeError`.  A merge outcome is
therefore a pair of the (partially) updated fields and a success flag, the
flag being `false` when that exception is raised. -/

inductive PbValue where
  | nullV : PbValue
  | numV : Int → PbValue
  | strV : String → PbValue
  | boolV : Bool → PbValue
  | structV : List (String × PbValue) → PbValue
  | listV : List PbValue → PbValue

/-- First-match lookup in a fields association list (`k in self.message.fields`
/ `self.message.fields[k]`). -/
def pbLookup (k : String) : List (String × PbValue) → Option PbValue
  | [] => none
  | (k1, v) :: rest => if k1 = k then some v else pbLookup k rest

mutual

/-- Protobuf message equality on `Value`s: same oneof kind and equal payload;
struct payloads compare as maps (same size, every key of the left present on
the right with an equal value — Python dict equality), list payloads compare
elementwise in order. -/
def pbEq : PbValue → PbValue → Bool
  | .nullV, .nullV => true
  | .numV a, .numV b => a == b
  | .strV a, .strV b => a == b
  | .boolV a, .boolV b => a == b
  | .structV fs, .structV gs => Nat.beq fs.length gs.length && pbEqFields fs gs
  | .listV as, .listV bs => pbEqList as bs
  | _, _ => false

/-- Every field of the first list is present in the second with `pbEq` value. -/
def pbEqFields : List (String × PbValue) → List (String × PbValue) → Bool
  | [], _ => true
  | (k, v) :: rest, gs =>
    (match pbLookup k gs with
     | some w => pbEq v w
     | none => false) && pbEqFields rest gs

/-- Ordered elementwise `pbEq` on repeated values. -/
def pbEqList : List PbValue → List PbValue → Bool
  | [], [] => true
  | a :: as, b :: bs => pbEq a b && pbEqList as bs
  | _, _ => false

end

/-- Protobuf `Struct` equality (the `==` of the merge claims). -/
def structEqv (a b : List (String × PbValue)) : Bool :=
  pbEq (.structV a) (.structV b)

/-- The oneof kind tag, as compared by `WhichOneof('kind')`. -/
def kindOf : PbValue → Nat
  | .nullV => 0
  | .numV _ => 1
  | .strV _ => 2
  | .boolV _ => 3
  | .structV _ => 4
  | .listV _ => 5

/-- A scalar leaf: not a struct and not a list. -/
def isScalar : PbValue → Bool
  | .structV _ => false
  | .listV _ => false
  | _ => true

/-- `del self.message.fields[k]`: drop the entry stored under `k`, keeping the
other entries in order. -/
def removeKey (k : String) : List (String × PbValue) → List (String × PbValue)
  | [] => []
  | (k1, v) :: rest => if k1 = k then removeKey k rest else (k1, v) :: removeKey k rest

/-- In-place replacement of the value stored at `k`. -/
def updateKey (k : String) (v : PbValue) : List (String × PbValue) → List (String × PbValue)
  | [] => []
  | (k1, w) :: rest =>
    if k1 = k then (k1, v) :: updateKey k v rest else (k1, w) :: updateKey k v rest

/-- The payload of a list value. -/
def listValues : PbValue → List PbValue
  | .listV l => l
  | _ => []

/-- `del my_value.list_value.values[i]` for the first `i` with `values[i] == o`
(the inner scan breaks at the first match; no match leaves the list alone). -/
def removeFirstEq (o : PbValue) : List PbValue → List PbValue
  | [] => []
  | v :: rest => if pbEq v o then rest else v :: removeFirstEq o rest

/-- The list branch of `Struct.merge`, one modifier element at a time: in
delete mode the first equal element is removed; in add mode the inner scan has
no effect and the element is appended unconditionally (the `break` does not
skip the `if not delete` append). -/
def mergeList (delete : Bool) (mys os : List PbValue) : List PbValue :=
  os.foldl (fun cur o => if delete then removeFirstEq o cur else cur ++ [o]) mys

/-- One iteration of the `for k, v in other.message.fields.items()` loop of
`Struct.merge`: returns the updated target fields and `false` exactly when the
nested-struct recursion raises `AttributeError` (a non-empty `struct_value`
modifier against a `struct_value` target field). -/
def mergeOne (delete : Bool) (self : List (String × PbValue)) (k : String) (v : PbValue) :
    List (String × PbValue) × Bool :=
  match pbLookup k self with
  | none => (if delete then self else self ++ [(k, v)], true)
  | some my =>
    if kindOf v ≠ kindOf my then (self, true)
    else
      match v with
      | .structV fs =>
        if fs.isEmpty then (if delete then removeKey k self else self, true)
        else (self, false)
      | .listV os =>
        if os.isEmpty then (if delete then removeKey k self else self, true)
        else (updateKey k (.listV (mergeList delete (listValues my) os)) self, true)
      | _ => if pbEq my v then (removeKey k self, true) else (self, true)

/-- `Struct.merge(self, other, delete)`: fold `mergeOne` over the modifier's
fields in order, stopping with the partial state when an iteration raises. -/
def mergeFields (delete : Bool) :
    List (String × PbValue) → List (String × PbValue) → List (String × PbValue) × Bool
  | self, [] => (self, true)
  | self, (k, v) :: rest =>
    match mergeOne delete self k v with
    | (s1, true) => mergeFields delete s1 rest
    | (s1, false) => (s1, false)

/-- C2 counterexample: merge with `delete=False` is not idempotent in the
modifier.  With `c = m = {a: "x"}` the first merge deletes the equal scalar
field from the target (the code's final branch removes it from `self`, not the
modifier), leaving `{}`, and the second merge copies it back, so
`merge(merge(c, m), m) = {a: "x"} ≠ {} = merge(c, m)`; both merges complete
normally. -/
theorem c2_merge_not_idempotent :
    (mergeFields false [("a", PbValue.strV "x")] [("a", PbValue.strV "x")]).2 = true ∧
    (mergeFields false (mergeFields false [("a", PbValue.strV "x")]
      [("a", PbValue.strV "x")]).1 [("a", PbValue.strV "x")]).2 = true ∧
    structEqv
      (mergeFields false (mergeFields false [("a", PbValue.strV "x")]
        [("a", PbValue.strV "x")]).1 [("a", PbValue.strV "x")]).1
      (mergeFields false [("a", PbValue.strV "x")] [("a", PbValue.strV "x")]).1 = false := by
  refine ⟨by decide, by decide, by decide⟩

/-- C5 counterexample: `merge(delete)` followed by `merge(add)` of the same
modifier does not restore the claim.  With `c = {}` and `m = {a: "x"}` the
delete pass is a no-op (the key is absent) and the add pass copies the field
in, yielding `{a: "x"} ≠ {}`. -/
theorem c5_delete_then_add_not_restoring :
    (mergeFields true ([] : List (String × PbValue)) [("a", PbValue.strV "x")]).2 = true ∧
    (mergeFields false (mergeFields true ([] : List (String × PbValue))
      [("a", PbValue.strV "x")]).1 [("a", PbValue.strV "x")]).2 = true ∧
    structEqv
      (mergeFields false (mergeFields true ([] : List (String × PbValue))
        [("a", PbValue.strV "x")]).1 [("a", PbValue.strV "x")]).1 [] = false := by
  refine ⟨by decide, by decide, by decide⟩

/-- C6 counterexample: the type-mismatch frame property does not extend to
nesting depth 2.  With target `{s: {k: 1}}` and modifier `{s: {k: ["x"]}}` the
kinds at depth 2 disagree, but `Struct.merge` never reaches the comparison: on
a non-empty nested struct it calls `Struct(my_value).merge(v.struct_value)`,
which raises `AttributeError` (in both add and delete mode) instead of
completing and leaving the field untouched. -/
theorem c6_nested_mismatch_raises :
    (mergeFields false [("s", PbValue.structV [("k", PbValue.numV 1)])]
      [("s", PbValue.structV [("k", PbValue.listV [PbValue.strV "x"])])]).2 = false ∧
    (mergeFields true [("s", PbValue.structV [("k", PbValue.numV 1)])]
      [("s", PbValue.structV [("k", PbValue.listV [PbValue.strV "x"])])]).2 = false := by
  refine ⟨by decide, by decide⟩

/-! ## Pointwise analysis of the merge

`keyOp` is the per-key effect of one merge pass on a scalar modifier field:
an absent key is copied in add mode and skipped in delete mode; a present key
of a different kind is untouched; an equal scalar is removed (in both modes —
the final branch of `Struct.merge` does not test `delete`); a differing scalar
is untouched. -/

def keyOp (delete : Bool) : Option PbValue → PbValue → Option PbValue
  | none, v => if delete then none else some v
  | some t, v => if kindOf v ≠ kindOf t then some t else if pbEq t v then none else some t

theorem pbLookup_eq_none_iff (k : String) (fs : List (String × PbValue)) :
    pbLookup k fs = none ↔ k ∉ fs.map Prod.fst := by
  induction fs with
  | nil => simp [pbLookup]
  | cons p rest ih =>
    obtain ⟨k1, v⟩ := p
    by_cases hk : k1 = k
    · subst hk
      simp [pbLookup]
    · simp [pbLookup, hk, ih, Ne.symm hk]

theorem pbLookup_isSome_of_mem_keys (k : String) (fs : List (String × PbValue))
    (h : k ∈ fs.map Prod.fst) : ∃ t, pbLookup k fs = some t := by
  cases hl : pbLookup k fs with
  | none => exact absurd ((pbLookup_eq_none_iff k fs).mp hl) (by simpa using h)
  | some t => exact ⟨t, rfl⟩

theorem pbLookup_append_single_self (k : String) (v : PbValue)
    (fs : List (String × PbValue)) (h : pbLookup k fs = none) :
    pbLookup k (fs ++ [(k, v)]) = some v := by
  induction fs with
  | nil => simp [pbLookup]
  | cons p rest ih =>
    obtain ⟨k1, w⟩ := p
    by_cases hk : k1 = k
    · simp [pbLookup, hk] at h
    · rw [pbLookup, if_neg hk] at h
      rw [List.cons_append, pbLookup, if_neg hk]
      exact ih h

theorem pbLookup_append_single_other (k k1 : String) (v : PbValue)
    (fs : List (String × PbValue)) (h : k ≠ k1) :
    pbLookup k (fs ++ [(k1, v)]) = pbLookup k fs := by
  induction fs with
  | nil => simp [pbLookup, Ne.symm h]
  | cons p rest ih =>
    obtain ⟨k2, w⟩ := p
    by_cases hk : k2 = k
    · simp [pbLookup, hk]
    · simp only [List.cons_append, pbLookup, hk, if_false]
      exact ih

theorem pbLookup_removeKey_self (k : String) (fs : List (String × PbValue)) :
    pbLookup k (removeKey k fs) = none := by
  induction fs with
  | nil => rfl
  | cons p rest ih =>
    obtain ⟨k1, v⟩ := p
    by_cases hk : k1 = k
    · simpa [removeKey, hk] using ih
    · simpa [removeKey, pbLookup, hk] using ih

theorem pbLookup_removeKey_other (k k1 : String) (fs : List (String × PbValue))
    (h : k ≠ k1) : pbLookup k (removeKey k1 fs) = pbLookup k fs := by
  induction fs with
  | nil => rfl
  | cons p rest ih =>
    obtain ⟨k2, v⟩ := p
    by_cases hk2 : k2 = k1
    · subst hk2
      rw [removeKey, if_pos rfl, pbLookup, if_neg (Ne.symm h)]
      exact ih
    · rw [removeKey, if_neg hk2, pbLookup, pbLookup]
      by_cases hk : k2 = k
      · rw [if_pos hk, if_pos hk]
      · rw [if_neg hk, if_neg hk]
        exact ih

theorem pbLookup_updateKey_other (k k1 : String) (v : PbValue)
    (fs : List (String × PbValue)) (h : k ≠ k1) :
    pbLookup k (updateKey k1 v fs) = pbLookup k fs := by
  induction fs with
  | nil => rfl
  | cons p rest ih =>
    obtain ⟨k2, w⟩ := p
    by_cases hk2 : k2 = k1
    · subst hk2
      rw [updateKey, if_pos rfl, pbLookup, if_neg (Ne.symm h), pbLookup,
        if_neg (Ne.symm h)]
      exact ih
    · rw [updateKey, if_neg hk2, pbLookup, pbLookup]
      by_cases hk : k2 = k
      · rw [if_pos hk, if_pos hk]
      · rw [if_neg hk, if_neg hk]
        exact ih

theorem pbLookup_eq_of_mem (k : String) (v : PbValue) (fs : List (String × PbValue))
    (hnd : (fs.map Prod.fst).Nodup) (hmem : (k, v) ∈ fs) : pbLookup k fs = some v := by
  induction fs with
  | nil => simp at hmem
  | cons p rest ih =>
    obtain ⟨k1, w⟩ := p
    have hnd' : k1 ∉ rest.map Prod.fst ∧ (rest.map Prod.fst).Nodup := by
      rw [List.map_cons, List.nodup_cons] at hnd
      exact hnd
    rcases List.mem_cons.mp hmem with heq | hrest
    · cases heq
      simp [pbLookup]
    · have hk : k1 ≠ k := by
        intro hk
        subst hk
        exact hnd'.1 (List.mem_map.mpr ⟨(k1, v), hrest, rfl⟩)
      rw [pbLookup, if_neg hk]
      exact ih hnd'.2 hrest

theorem pbEq_refl_scalar (v : PbValue) (hv : isScalar v = true) : pbEq v v = true := by
  cases v <;> simp_all [pbEq, isScalar]

theorem pbEq_eq_of_scalar (t v : PbValue) (ht : isScalar t = true)
    (h : pbEq t v = true) : t = v := by
  cases t <;> cases v <;> simp_all [pbEq, isScalar]

theorem isScalar_of_kindOf_eq (t v : PbValue) (hv : isScalar v = true)
    (h : kindOf v = kindOf t) : isScalar t = true := by
  cases t <;> cases v <;> simp_all [kindOf, isScalar]

theorem mergeOne_lookup_other (d : Bool) (self : List (String × PbValue)) (k : String)
    (v : PbValue) (k1 : String) (h : k1 ≠ k) :
    pbLookup k1 (mergeOne d self k v).1 = pbLookup k1 self := by
  cases hl : pbLookup k self with
  | none =>
    cases d <;> simp [mergeOne, hl, pbLookup_append_single_other _ _ _ _ h]
  | some my =>
    by_cases hkind : kindOf v ≠ kindOf my
    · simp [mergeOne, hl, hkind]
    · cases v <;>
        simp [mergeOne, hl, hkind, pbLookup_removeKey_other _ _ _ h,
          pbLookup_updateKey_other _ _ _ _ h] <;>
        split_ifs <;>
        simp [pbLookup_removeKey_other _ _ _ h, pbLookup_updateKey_other _ _ _ _ h]

theorem mergeOne_ok_scalar (d : Bool) (self : List (String × PbValue)) (k : String)
    (v : PbValue) (hv : isScalar v = true) : (mergeOne d self k v).2 = true := by
  cases hl : pbLookup k self with
  | none => cases d <;> simp [mergeOne, hl]
  | some my =>
    by_cases hkind : kindOf v ≠ kindOf my
    · simp [mergeOne, hl, hkind]
    · cases v <;> simp_all [isScalar] <;> simp [mergeOne, hl, hkind] <;> split_ifs <;> rfl

theorem mergeOne_some_scalar (d : Bool) (self : List (String × PbValue)) (k : String)
    (v my : PbValue) (hl : pbLookup k self = some my) (hkind : ¬ kindOf v ≠ kindOf my)
    (hv : isScalar v = true) :
    mergeOne d self k v =
      (if pbEq my v = true then removeKey k self else self, true) := by
  cases v <;> simp_all [isScalar] <;> simp [mergeOne, hl, hkind] <;> split_ifs <;> rfl

theorem mergeOne_lookup_self_scalar (d : Bool) (self : List (String × PbValue))
    (k : String) (v : PbValue) (hv : isScalar v = true) :
    pbLookup k (mergeOne d self k v).1 = keyOp d (pbLookup k self) v := by
  cases hl : pbLookup k self with
  | none =>
    cases d <;> simp [mergeOne, hl, keyOp, pbLookup_append_single_self _ _ _ hl]
  | some my =>
    by_cases hkind : kindOf v ≠ kindOf my
    · simp [mergeOne, hl, hkind, keyOp]
    · rw [mergeOne_some_scalar d self k v my hl hkind hv]
      by_cases heq : pbEq my v = true
      · simp [keyOp, heq, hkind, pbLookup_removeKey_self]
      · simp [keyOp, heq, hkind, hl]

theorem mergeFields_ok_scalars (d : Bool) (m : List (String × PbValue))
    (hm : ∀ p ∈ m, isScalar p.2 = true) :
    ∀ self, (mergeFields d self m).2 = true := by
  induction m with
  | nil => intro self; rfl
  | cons p rest ih =>
    intro self
    obtain ⟨k, v⟩ := p
    have hok := mergeOne_ok_scalar d self k v (hm (k, v) (List.mem_cons_self _ _))
    cases h1 : mergeOne d self k v with
    | mk s1 ok =>
      rw [h1] at hok
      cases ok
      · simp at hok
      · simp only [mergeFields, h1]
        exact ih (fun p hp => hm p (List.mem_cons_of_mem _ hp)) s1

theorem mergeFields_lookup_notmem (d : Bool) (m : List (String × PbValue)) (k : String)
    (hk : k ∉ m.map Prod.fst) :
    ∀ self, pbLookup k (mergeFields d self m).1 = pbLookup k self := by
  induction m with
  | nil => intro self; rfl
  | cons p rest ih =>
    obtain ⟨k1, v⟩ := p
    rw [List.map_cons, List.mem_cons, not_or] at hk
    intro self
    cases h1 : mergeOne d self k1 v with
    | mk s1 ok =>
      have hpres : pbLookup k s1 = pbLookup k self := by
        have := mergeOne_lookup_other d self k1 v k hk.1
        rw [h1] at this
        exact this
      cases ok
      · simp only [mergeFields, h1]
        exact hpres
      · simp only [mergeFields, h1]
        rw [ih hk.2 s1, hpres]

theorem mergeFields_lookup_mem_scalar (d : Bool) (m : List (String × PbValue))
    (k : String) (v : PbValue) (hnd : (m.map Prod.fst).Nodup)
    (hm : ∀ p ∈ m, isScalar p.2 = true) (hmem : (k, v) ∈ m) :
    ∀ self, pbLookup k (mergeFields d self m).1 = keyOp d (pbLookup k self) v := by
  induction m with
  | nil => simp at hmem
  | cons p rest ih =>
    obtain ⟨k1, v1⟩ := p
    rw [List.map_cons, List.nodup_cons] at hnd
    intro self
    have hv1 : isScalar v1 = true := hm (k1, v1) (List.mem_cons_self _ _)
    have hok := mergeOne_ok_scalar d self k1 v1 hv1
    cases h1 : mergeOne d self k1 v1 with
    | mk s1 ok =>
      rw [h1] at hok
      cases ok
      · simp at hok
      · simp only [mergeFields, h1]
        by_cases hkk1 : k1 = k
        · subst hkk1
          have hv1v : v1 = v := by
            rcases List.mem_cons.mp hmem with heq | hrest
            · exact (Prod.mk.injEq _ _ _ _ ▸ heq).2.symm ▸ rfl
            · exact absurd (List.mem_map.mpr ⟨(k1, v), hrest, rfl⟩) hnd.1
          subst hv1v
          rw [mergeFields_lookup_notmem d rest k1 hnd.1 s1]
          have := mergeOne_lookup_self_scalar d self k1 v1 hv1
          rw [h1] at this
          exact this
        · have hrest : (k, v) ∈ rest := by
            rcases List.mem_cons.mp hmem with heq | hrest
            · cases heq; exact absurd rfl hkk1
            · exact hrest
          have hpres : pbLookup k s1 = pbLookup k self := by
            have := mergeOne_lookup_other d self k1 v1 k (fun h => hkk1 h.symm)
            rw [h1] at this
            exact this
          rw [ih hnd.2 (fun p hp => hm p (List.mem_cons_of_mem _ hp)) hrest s1, hpres]

theorem removeKey_sublist (k : String) (fs : List (String × PbValue)) :
    (removeKey k fs).Sublist fs := by
  induction fs with
  | nil => simp [removeKey]
  | cons p rest ih =>
    obtain ⟨k1, v⟩ := p
    by_cases hk : k1 = k
    · rw [removeKey, if_pos hk]
      exact ih.cons _
    · rw [removeKey, if_neg hk]
      exact ih.cons₂ _

theorem keys_updateKey (k : String) (v : PbValue) (fs : List (String × PbValue)) :
    (updateKey k v fs).map Prod.fst = fs.map Prod.fst := by
  induction fs with
  | nil => rfl
  | cons p rest ih =>
    obtain ⟨k1, w⟩ := p
    by_cases hk : k1 = k <;> simp [updateKey, hk, ih]

theorem mergeOne_keysNodup (d : Bool) (self : List (String × PbValue)) (k : String)
    (v : PbValue) (h : (self.map Prod.fst).Nodup) :
    ((mergeOne d self k v).1.map Prod.fst).Nodup := by
  cases hl : pbLookup k self with
  | none =>
    have hnotin : k ∉ self.map Prod.fst := (pbLookup_eq_none_iff k self).mp hl
    cases d <;> simp_all [mergeOne, hl, List.nodup_append]
  | some my =>
    have hrem : ((removeKey k self).map Prod.fst).Nodup :=
      ((removeKey_sublist k self).map Prod.fst).nodup h
    by_cases hkind : kindOf v ≠ kindOf my
    · simpa [mergeOne, hl, hkind] using h
    · cases v <;>
        simp [mergeOne, hl, hkind, keys_updateKey, h, hrem] <;>
        split_ifs <;>
        simp [keys_updateKey, h, hrem]

theorem mergeFields_keysNodup (d : Bool) (m : List (String × PbValue)) :
    ∀ self, (self.map Prod.fst).Nodup → ((mergeFields d self m).1.map Prod.fst).Nodup := by
  induction m with
  | nil => intro self h; exact h
  | cons p rest ih =>
    obtain ⟨k, v⟩ := p
    intro self h
    have h1' := mergeOne_keysNodup d self k v h
    cases h1 : mergeOne d self k v with
    | mk s1 ok =>
      rw [h1] at h1'
      cases ok
      · simpa [mergeFields, h1] using h1'
      · simp only [mergeFields, h1]
        exact ih s1 h1'

theorem mergeOne_scalars (d : Bool) (self : List (String × PbValue)) (k : String)
    (v : PbValue) (hs : ∀ p ∈ self, isScalar p.2 = true) (hv : isScalar v = true) :
    ∀ p ∈ (mergeOne d self k v).1, isScalar p.2 = true := by
  have hrem : ∀ p ∈ removeKey k self, isScalar p.2 = true :=
    fun p hp => hs p ((removeKey_sublist k self).mem hp)
  cases hl : pbLookup k self with
  | none =>
    intro p hp
    cases d
    · simp [mergeOne, hl] at hp
      rcases hp with hmem | hmem
      · exact hs p hmem
      · rw [hmem]
        exact hv
    · simp [mergeOne, hl] at hp
      exact hs p hp
  | some my =>
    by_cases hkind : kindOf v ≠ kindOf my
    · simpa [mergeOne, hl, hkind] using hs
    · rw [mergeOne_some_scalar d self k v my hl hkind hv]
      by_cases heq : pbEq my v = true
      · simpa [heq] using hrem
      · simpa [heq] using hs

theorem mergeFields_scalars (d : Bool) (m : List (String × PbValue))
    (hm : ∀ p ∈ m, isScalar p.2 = true) :
    ∀ self, (∀ p ∈ self, isScalar p.2 = true) →
      ∀ p ∈ (mergeFields d self m).1, isScalar p.2 = true := by
  induction m with
  | nil => intro self hs; exact hs
  | cons p rest ih =>
    obtain ⟨k, v⟩ := p
    intro self hs
    have h1' := mergeOne_scalars d self k v hs (hm (k, v) (List.mem_cons_self _ _))
    cases h1 : mergeOne d self k v with
    | mk s1 ok =>
      rw [h1] at h1'
      cases ok
      · simpa [mergeFields, h1] using h1'
      · simp only [mergeFields, h1]
        exact ih (fun p hp => hm p (List.mem_cons_of_mem _ hp)) s1 h1'

theorem keyOp_add_add (t? : Option PbValue) (v : PbValue) (hv : isScalar v = true) :
    keyOp false (keyOp false t? v) v = t? := by
  cases t? with
  | none =>
    simp [keyOp, pbEq_refl_scalar v hv]
  | some t =>
    by_cases hkind : kindOf v ≠ kindOf t
    · simp [keyOp, hkind]
    · by_cases heq : pbEq t v = true
      · have ht : isScalar t = true :=
          isScalar_of_kindOf_eq t v hv (not_not.mp (by simpa using hkind))
        have htv : t = v := pbEq_eq_of_scalar t v ht heq
        subst htv
        simp [keyOp, hkind, heq]
      · simp [keyOp, hkind, heq]

theorem keyOp_del_add (t : PbValue) (v : PbValue) (hv : isScalar v = true) :
    keyOp false (keyOp true (some t) v) v = some t := by
  by_cases hkind : kindOf v ≠ kindOf t
  · simp [keyOp, hkind]
  · by_cases heq : pbEq t v = true
    · have ht : isScalar t = true :=
        isScalar_of_kindOf_eq t v hv (not_not.mp (by simpa using hkind))
      have htv : t = v := pbEq_eq_of_scalar t v ht heq
      subst htv
      simp [keyOp, hkind, heq]
    · simp [keyOp, hkind, heq]

theorem pbEqFields_of_lookup (a b : List (String × PbValue))
    (hcond : ∀ p ∈ a, pbLookup p.1 b = some p.2 ∧ isScalar p.2 = true) :
    pbEqFields a b = true := by
  induction a with
  | nil => rfl
  | cons p rest ih =>
    obtain ⟨k, v⟩ := p
    obtain ⟨hb, hs⟩ := hcond (k, v) (List.mem_cons_self _ _)
    simp only [pbEqFields, hb, Bool.and_eq_true]
    exact ⟨pbEq_refl_scalar v hs, ih (fun p hp => hcond p (List.mem_cons_of_mem _ hp))⟩

theorem structEqv_of_lookup (a b : List (String × PbValue))
    (ha : (a.map Prod.fst).Nodup) (hb : (b.map Prod.fst).Nodup)
    (hsc : ∀ p ∈ a, isScalar p.2 = true)
    (h : ∀ k, pbLookup k a = pbLookup k b) : structEqv a b = true := by
  have hmemiff : ∀ s, s ∈ a.map Prod.fst ↔ s ∈ b.map Prod.fst := by
    intro s
    have hnone : pbLookup s a = none ↔ pbLookup s b = none := by rw [h s]
    constructor
    · intro hs
      by_contra hbs
      exact ((pbLookup_eq_none_iff s a).mp
        (hnone.mpr ((pbLookup_eq_none_iff s b).mpr hbs))) hs
    · intro hs
      by_contra has
      exact ((pbLookup_eq_none_iff s b).mp
        (hnone.mp ((pbLookup_eq_none_iff s a).mpr has))) hs
  have hlen : a.length = b.length := by
    have hfin : (a.map Prod.fst).toFinset = (b.map Prod.fst).toFinset := by
      ext s
      simpa using hmemiff s
    have := congrArg Finset.card hfin
    rw [List.toFinset_card_of_nodup ha, List.toFinset_card_of_nodup hb] at this
    simpa using this
  have h2 : pbEqFields a b = true := by
    apply pbEqFields_of_lookup
    intro p hp
    refine ⟨?_, hsc p hp⟩
    rw [← h p.1]
    exact pbLookup_eq_of_mem p.1 p.2 a ha (by simpa using hp)
  show (Nat.beq a.length b.length && pbEqFields a b) = true
  rw [h2, hlen]
  simp

/-- C2 amended: merge with `delete=False` is not idempotent in the modifier —
a field made equal by the first application is deleted from the target by the
second, and a field deleted by the first is re-added by the second.  For
structs whose fields are all scalar leaves, these two effects cancel: applying
the same modifier twice returns a struct protobuf-equal to the original
target, `merge(merge(c, m), m) == c`, and both passes complete normally. -/
theorem c2_scalar_merge_twice_restores (c m : List (String × PbValue))
    (hcs : ∀ p ∈ c, isScalar p.2 = true) (hms : ∀ p ∈ m, isScalar p.2 = true)
    (hcn : (c.map Prod.fst).Nodup) (hmn : (m.map Prod.fst).Nodup) :
    (mergeFields false c m).2 = true ∧
    (mergeFields false (mergeFields false c m).1 m).2 = true ∧
    structEqv (mergeFields false (mergeFields false c m).1 m).1 c = true := by
  refine ⟨mergeFields_ok_scalars false m hms c, mergeFields_ok_scalars false m hms _, ?_⟩
  have hc1s : ∀ p ∈ (mergeFields false c m).1, isScalar p.2 = true :=
    mergeFields_scalars false m hms c hcs
  have hc2s : ∀ p ∈ (mergeFields false (mergeFields false c m).1 m).1,
      isScalar p.2 = true :=
    mergeFields_scalars false m hms _ hc1s
  have hc1n := mergeFields_keysNodup false m c hcn
  have hc2n := mergeFields_keysNodup false m (mergeFields false c m).1 hc1n
  apply structEqv_of_lookup _ _ hc2n hcn hc2s
  intro k
  by_cases hk : k ∈ m.map Prod.fst
  · obtain ⟨p, hp, hpk⟩ := List.mem_map.mp hk
    obtain ⟨k1, v⟩ := p
    cases hpk
    have hv := hms (k1, v) hp
    rw [mergeFields_lookup_mem_scalar false m k1 v hmn hms hp _,
      mergeFields_lookup_mem_scalar false m k1 v hmn hms hp c]
    exact keyOp_add_add _ v hv
  · rw [mergeFields_lookup_notmem false m k hk _, mergeFields_lookup_notmem false m k hk c]

/-- C2 amended witness: double application restores a concrete scalar target. -/
theorem c2_scalar_merge_twice_restores_witness :
    (mergeFields false [("a", PbValue.numV 1)]
      [("a", PbValue.numV 1), ("b", PbValue.boolV true)]).2 = true ∧
    (mergeFields false (mergeFields false [("a", PbValue.numV 1)]
      [("a", PbValue.numV 1), ("b", PbValue.boolV true)]).1
      [("a", PbValue.numV 1), ("b", PbValue.boolV true)]).2 = true ∧
    structEqv (mergeFields false (mergeFields false [("a", PbValue.numV 1)]
      [("a", PbValue.numV 1), ("b", PbValue.boolV true)]).1
      [("a", PbValue.numV 1), ("b", PbValue.boolV true)]).1
      [("a", PbValue.numV 1)] = true :=
  c2_scalar_merge_twice_restores _ _ (by decide) (by decide) (by decide) (by decide)

/-- C5 amended: `merge(delete)` followed by `merge(add)` of the same modifier
restores the claim only under restrictions: when every modifier field is a
scalar leaf whose key is present in the claim (and the claim's fields are
scalar leaves), an equal scalar is deleted and re-added and a differing or
kind-mismatched scalar is untouched twice, so the final struct is
protobuf-equal to the original.  A modifier key absent from the claim, or list
fields, break the round trip (see the counterexample). -/
theorem c5_scalar_delete_then_add_restores (c m : List (String × PbValue))
    (hcs : ∀ p ∈ c, isScalar p.2 = true) (hms : ∀ p ∈ m, isScalar p.2 = true)
    (hcn : (c.map Prod.fst).Nodup) (hmn : (m.map Prod.fst).Nodup)
    (hsub : ∀ p ∈ m, p.1 ∈ c.map Prod.fst) :
    (mergeFields true c m).2 = true ∧
    (mergeFields false (mergeFields true c m).1 m).2 = true ∧
    structEqv (mergeFields false (mergeFields true c m).1 m).1 c = true := by
  refine ⟨mergeFields_ok_scalars true m hms c, mergeFields_ok_scalars false m hms _, ?_⟩
  have hc1s : ∀ p ∈ (mergeFields true c m).1, isScalar p.2 = true :=
    mergeFields_scalars true m hms c hcs
  have hc2s : ∀ p ∈ (mergeFields false (mergeFields true c m).1 m).1,
      isScalar p.2 = true :=
    mergeFields_scalars false m hms _ hc1s
  have hc1n := mergeFields_keysNodup true m c hcn
  have hc2n := mergeFields_keysNodup false m (mergeFields true c m).1 hc1n
  apply structEqv_of_lookup _ _ hc2n hcn hc2s
  intro k
  by_cases hk : k ∈ m.map Prod.fst
  · obtain ⟨p, hp, hpk⟩ := List.mem_map.mp hk
    obtain ⟨k1, v⟩ := p
    cases hpk
    have hv := hms (k1, v) hp
    obtain ⟨t, ht⟩ := pbLookup_isSome_of_mem_keys k1 c (hsub (k1, v) hp)
    rw [mergeFields_lookup_mem_scalar false m k1 v hmn hms hp _,
      mergeFields_lookup_mem_scalar true m k1 v hmn hms hp c, ht]
    exact keyOp_del_add t v hv
  · rw [mergeFields_lookup_notmem false m k hk _, mergeFields_lookup_notmem true m k hk c]

/-- C5 amended witness: delete-then-add restores a concrete claim whose
modifier's scalar keys are all present. -/
theorem c5_scalar_delete_then_add_restores_witness :
    structEqv (mergeFields false (mergeFields true
      [("a", PbValue.strV "x"), ("b", PbValue.numV 2)] [("a", PbValue.strV "x")]).1
      [("a", PbValue.strV "x")]).1
      [("a", PbValue.strV "x"), ("b", PbValue.numV 2)] = true :=
  (c5_scalar_delete_then_add_restores _ _ (by decide) (by decide) (by decide)
    (by decide) (by decide)).2.2

theorem c6_mismatch_preserved_aux (d : Bool) (k : String) (v : PbValue) :
    ∀ m : List (String × PbValue), (m.map Prod.fst).Nodup →
      ∀ w, kindOf v ≠ kindOf w → pbLookup k m = some w →
      ∀ c, pbLookup k c = some v →
      pbLookup k (mergeFields d c m).1 = some v := by
  intro m
  induction m with
  | nil =>
    intro _ w _ hw
    simp [pbLookup] at hw
  | cons p rest ih =>
    obtain ⟨k1, w1⟩ := p
    intro hmn w hk hw c hv
    rw [List.map_cons, List.nodup_cons] at hmn
    by_cases hk1 : k1 = k
    · subst hk1
      rw [pbLookup, if_pos rfl] at hw
      obtain rfl : w1 = w := Option.some.inj hw
      have h1 : mergeOne d c k1 w1 = (c, true) := by
        simp only [mergeOne, hv]
        rw [if_pos (Ne.symm hk)]
      simp only [mergeFields, h1]
      rw [mergeFields_lookup_notmem d rest k1 hmn.1 c]
      exact hv
    · rw [pbLookup, if_neg hk1] at hw
      cases h1 : mergeOne d c k1 w1 with
      | mk s1 ok =>
        have hpres : pbLookup k s1 = pbLookup k c := by
          have := mergeOne_lookup_other d c k1 w1 k (fun h => hk1 h.symm)
          rw [h1] at this
          exact this
        cases ok
        · simp only [mergeFields, h1]
          rw [hpres]
          exact hv
        · simp only [mergeFields, h1]
          exact ih hmn.2 w hk hw s1 (hpres.trans hv)

/-- C6 amended: at the top level a kind mismatch at key `k` leaves the
target's field `k` unchanged, in add and delete mode alike, and this holds
even when the merge later stops with an error on another field; the claimed
extension to every nesting depth fails because recursing into a non-empty
struct-valued field raises `AttributeError` (see the counterexample). -/
theorem c6_top_level_mismatch_preserves_field (d : Bool)
    (m c : List (String × PbValue)) (k : String) (v w : PbValue)
    (hmn : (m.map Prod.fst).Nodup) (hv : pbLookup k c = some v)
    (hw : pbLookup k m = some w) (hk : kindOf v ≠ kindOf w) :
    pbLookup k (mergeFields d c m).1 = some v :=
  c6_mismatch_preserved_aux d k v m hmn w hk hw c hv

/-- C6 amended witness: a concrete top-level kind mismatch (number vs list) is
preserved through the merge. -/
theorem c6_top_level_mismatch_preserves_field_witness :
    pbLookup "k" (mergeFields false [("k", PbValue.numV 7)]
      [("k", PbValue.listV [PbValue.strV "x"])]).1 = some (PbValue.numV 7) :=
  c6_top_level_mismatch_preserves_field false _ _ "k" (PbValue.numV 7)
    (PbValue.listV [PbValue.strV "x"]) (by decide) rfl rfl (by decide)

/-! ## The fee shim (`Fee` in src/hub/schema/attrs.py)

`Decimal` amounts are finite decimals, modelled as `num / 10 ^ exp`.
`Decimal.quantize(PENNY, ROUND_UP)` rounds to a multiple of 0.01 away from
zero; multiplying by `PENNIES` and truncating with `int(...)` then yields the
integer cent count, computed here by rounded-up natural division. -/

structure Dec where
  num : Int
  exp : Nat
deriving DecidableEq

inductive FeeCurrency where
  | lbc
  | btc
  | usd
deriving DecidableEq

structure FeeState where
  amount : Int
  currency : Option FeeCurrency
  address : List Nat
deriving DecidableEq

/-- Python `str.lower()`: lowercase each character. -/
def strLower (s : String) : String := ⟨s.data.map Char.toLower⟩

/-- `FeeMessage.Currency.Name(message.currency)` (empty when unset). -/
def currencyName : Option FeeCurrency → String
  | none => ""
  | some .lbc => "LBC"
  | some .btc => "BTC"
  | some .usd => "USD"

/-- `int(amount.quantize(PENNY, ROUND_UP) * PENNIES)`: the amount in cents,
rounded away from zero. -/
def roundAwayCents (a : Dec) : Int :=
  if 0 ≤ a.num then ((a.num.toNat * 100 + 10 ^ a.exp - 1) / 10 ^ a.exp : Nat)
  else -(((-a.num).toNat * 100 + 10 ^ a.exp - 1) / 10 ^ a.exp : Nat)

/-- `int(amount * self.DEWIES)` (and `SATOSHIES`): truncation toward zero of
`amount * 10^8`. -/
def truncCoin (a : Dec) : Int :=
  if 0 ≤ a.num then ((a.num.toNat * 100000000) / 10 ^ a.exp : Nat)
  else -(((-a.num).toNat * 100000000) / 10 ^ a.exp : Nat)

/-- The `pennies` setter: store the cent count and set the currency to USD. -/
def Fee.pennies_set (st : FeeState) (amount : Int) : FeeState :=
  { st with amount := amount, currency := some .usd }

/-- The `usd` setter. -/
def Fee.usd_set (st : FeeState) (a : Dec) : FeeState :=
  Fee.pennies_set st (roundAwayCents a)

/-- The `dewies` setter. -/
def Fee.dewies_set (st : FeeState) (amount : Int) : FeeState :=
  { st with amount := amount, currency := some .lbc }

/-- The `lbc` setter. -/
def Fee.lbc_set (st : FeeState) (a : Dec) : FeeState :=
  Fee.dewies_set st (truncCoin a)

/-- The `satoshis` setter. -/
def Fee.satoshis_set (st : FeeState) (amount : Int) : FeeState :=
  { st with amount := amount, currency := some .btc }

/-- The `btc` setter. -/
def Fee.btc_set (st : FeeState) (a : Dec) : FeeState :=
  Fee.satoshis_set st (truncCoin a)

/-- The `usd` getter: `Decimal(self.message.amount / self.PENNIES)`, only for
USD fees. -/
def Fee.usd_get (st : FeeState) : Except String Rat :=
  if st.currency = some .usd then .ok ((st.amount : Rat) / 100)
  else .error "USD can only be returned for USD fees."

/-- `Fee.update(address, currency, amount)`: a truthy (non-zero) amount picks
the currency (argument, else stored, lowercased), validates it and dispatches
to the matching setter; a currency without an amount raises; an address
requires a currency already set. -/
def Fee.update (st : FeeState) (address : Option (List Nat))
    (currency : Option String) (amount : Option Dec) : Except String FeeState :=
  let amountTruthy := match amount with
    | some a => !(a.num == 0)
    | none => false
  let step1 : Except String FeeState :=
    if ha : amountTruthy = true then
      match amount with
      | some a =>
        let cur := strLower (match currency with
          | some c => c
          | none => currencyName st.currency)
        if cur = "" then
          .error "In order to set a fee amount, please specify a fee currency."
        else if cur = "lbc" then .ok (Fee.lbc_set st a)
        else if cur = "btc" then .ok (Fee.btc_set st a)
        else if cur = "usd" then .ok (Fee.usd_set st a)
        else .error "Missing or unknown currency provided"
      | none => .ok st
    else if currency.isSome then
      .error "In order to set a fee currency, please specify a fee amount."
    else .ok st
  match step1 with
  | .error e => .error e
  | .ok st1 =>
    match address with
    | none => .ok st1
    | some addr =>
      if st1.currency = none then
        .error "In order to set a fee address, please specify a fee amount and currency."
      else .ok { st1 with address := addr }

theorem ceilDiv_cast (m k : Nat) (hk : 0 < k) :
    (((m + k - 1) / k : Nat) : Int) = ⌈(m : ℚ) / (k : ℚ)⌉ := by
  have key : ∀ n r : Nat, r < k → k * n + r + 1 = m + k →
      ((n : Nat) : Int) = ⌈(m : ℚ) / (k : ℚ)⌉ := by
    intro n r hr hd
    have hkq : (0 : ℚ) < (k : ℚ) := by exact_mod_cast hk
    have hq : (k : ℚ) * n + r + 1 = (m : ℚ) + k := by exact_mod_cast hd
    have hrq : (r : ℚ) + 1 ≤ (k : ℚ) := by exact_mod_cast hr
    have hrq0 : (0 : ℚ) ≤ (r : ℚ) := by positivity
    symm
    rw [Int.ceil_eq_iff]
    constructor
    · have h1 : ((n : ℚ) - 1) * k < m := by nlinarith
      have h2 : (n : ℚ) - 1 < (m : ℚ) / k := (lt_div_iff hkq).mpr h1
      exact_mod_cast h2
    · have h1 : (m : ℚ) ≤ (n : ℚ) * k := by nlinarith
      have h2 : (m : ℚ) / k ≤ (n : ℚ) := (div_le_iff hkq).mpr h1
      exact_mod_cast h2
  apply key _ ((m + k - 1) % k) (Nat.mod_lt _ hk)
  have hd := Nat.div_add_mod (m + k - 1) k
  omega

theorem roundAwayCents_pos_eq_ceil (num : Int) (exp : Nat) (hpos : 0 < num) :
    roundAwayCents ⟨num, exp⟩ = ⌈(num : ℚ) * 100 / 10 ^ exp⌉ := by
  rw [roundAwayCents]
  rw [if_pos (show (0 : Int) ≤ num from le_of_lt hpos)]
  rw [ceilDiv_cast (num.toNat * 100) (10 ^ exp) (by positivity)]
  congr 1
  have h1 : ((num.toNat : Nat) : ℚ) = (num : ℚ) := by
    exact_mod_cast Int.toNat_of_nonneg (le_of_lt hpos)
  push_cast
  rw [h1]

/-- C9: `Fee.update(amount=a, currency='usd')` with a positive decimal amount
stores `ceiling(a * 100)` pennies (rounding up to the nearest cent), sets the
currency to USD, and the `usd` getter then returns that penny count divided by
100. -/
theorem c9_usd_fee_rounds_up (st : FeeState) (num : Int) (exp : Nat) (hpos : 0 < num) :
    Fee.update st none (some "usd") (some ⟨num, exp⟩) =
      .ok ⟨⌈(num : ℚ) * 100 / 10 ^ exp⌉, some FeeCurrency.usd, st.address⟩ ∧
    Fee.usd_get ⟨⌈(num : ℚ) * 100 / 10 ^ exp⌉, some FeeCurrency.usd, st.address⟩ =
      .ok ((⌈(num : ℚ) * 100 / 10 ^ exp⌉ : ℚ) / 100) := by
  constructor
  · have hb : (num == 0) = false := by
      rw [beq_eq_false_iff_ne]
      omega
    simp only [Fee.update, hb, Bool.not_false, eq_self_iff_true]
    rw [dif_pos trivial]
    rw [if_neg (by decide : ¬ strLower "usd" = ""),
      if_neg (by decide : ¬ strLower "usd" = "lbc"),
      if_neg (by decide : ¬ strLower "usd" = "btc"),
      if_pos (by decide : strLower "usd" = "usd")]
    show Except.ok (Fee.usd_set st ⟨num, exp⟩) =
      Except.ok ⟨⌈(num : ℚ) * 100 / 10 ^ exp⌉, some FeeCurrency.usd, st.address⟩
    rw [show Fee.usd_set st ⟨num, exp⟩ =
      ⟨roundAwayCents ⟨num, exp⟩, some FeeCurrency.usd, st.address⟩ from rfl]
    rw [roundAwayCents_pos_eq_ceil num exp hpos]
  · rw [Fee.usd_get, if_pos rfl]

/-- C9 witness: the USD rounding theorem at amount 1.005 (stored as 101
pennies). -/
theorem c9_usd_fee_rounds_up_witness :
    Fee.update ⟨0, none, []⟩ none (some "usd") (some ⟨1005, 3⟩) =
      .ok ⟨⌈((1005 : Int) : ℚ) * 100 / 10 ^ (3 : Nat)⌉, some FeeCurrency.usd, []⟩ ∧
    Fee.usd_get ⟨⌈((1005 : Int) : ℚ) * 100 / 10 ^ (3 : Nat)⌉, some FeeCurrency.usd, []⟩ =
      .ok ((⌈((1005 : Int) : ℚ) * 100 / 10 ^ (3 : Nat)⌉ : ℚ) / 100) :=
  c9_usd_fee_rounds_up ⟨0, none, []⟩ 1005 3 (by decide)

/-! ## Repost modifications (`ModifyingClaimReference.apply`)

`apply` works on protobuf message objects; to make the claimed absence of
mutation expressible, claims live in an explicit heap (a list of claim
values addressed by index).  `m.CopyFrom(reposted.message)` is a deep copy
into a freshly allocated cell, and the two extension-map merges write only to
that cell.  The `Claim` wrapper and its protobuf message live in
hub/schema/claim.py, outside this slice.  Modelled from the spec: a claim has
a claim type (stream / channel / repost / collection) and, for streams, an
extension map keyed by schema; a repost modification carries a oneof
modification type plus `deletions` and `edits` extension maps. -/

inductive ClaimType where
  | stream
  | channel
  | repost
  | collection
deriving DecidableEq

/-- Modelled from the spec: the observable state of a claim message — its
claim type and its stream extension map (schema name to extension struct
fields). -/
structure ClaimV where
  claim_type : ClaimType
  extensions : List (String × List (String × PbValue))

instance : Inhabited ClaimV := ⟨⟨ClaimType.stream, []⟩⟩

/-- Modelled from the spec: the `ModifyingClaimReference` message — the oneof
modification type (`WhichOneof('type')`, `none` when unset) and the stream
member's `deletions` and `edits` extension maps. -/
structure ModRefV where
  modification_type : Option ClaimType
  deletions : List (String × List (String × PbValue))
  edits : List (String × List (String × PbValue))

/-- Lookup in an extension map (`schema in self.message` semantics). -/
def extMapLookup (k : String) :
    List (String × List (String × PbValue)) → Option (List (String × PbValue))
  | [] => none
  | (k1, v) :: rest => if k1 = k then some v else extMapLookup k rest

/-- `del self.message[schema]`. -/
def extMapRemove (k : String) :
    List (String × List (String × PbValue)) → List (String × List (String × PbValue))
  | [] => []
  | (k1, v) :: rest =>
    if k1 = k then extMapRemove k rest else (k1, v) :: extMapRemove k rest

/-- Store `v` under `k`: replace in place when present, else append (protobuf
map access `self.message[schema]` auto-inserts at the end before the merge
mutates the entry). -/
def extMapSet (k : String) (v : List (String × PbValue)) :
    List (String × List (String × PbValue)) → List (String × List (String × PbValue))
  | [] => [(k, v)]
  | (k1, w) :: rest =>
    if k1 = k then (k1, v) :: rest else (k1, w) :: extMapSet k v rest

/-- One iteration of `StreamExtensionMap.merge`: the modifier extension is
copied (`from_value` does `CopyFrom`); in delete mode an empty modifier
extension deletes the whole schema entry (`del self.message[schema]`, a
`KeyError` if the schema is absent); otherwise the target entry (auto-inserted
empty if absent) is struct-merged with the modifier, which can raise (`false`
flag) leaving the partially merged entry in place. -/
def extMapMergeOne (delete : Bool) (self : List (String × List (String × PbValue)))
    (schema : String) (obj : List (String × PbValue)) :
    List (String × List (String × PbValue)) × Bool :=
  if delete && obj.isEmpty then
    match extMapLookup schema self with
    | some _ => (extMapRemove schema self, true)
    | none => (self, false)
  else
    let r := mergeFields delete ((extMapLookup schema self).getD []) obj
    (extMapSet schema r.1 self, r.2)

/-- `StreamExtensionMap.merge(self, exts, delete)` over the modifier's
schemas in order, stopping at the first raised error. -/
def extMapMerge (delete : Bool) :
    List (String × List (String × PbValue)) → List (String × List (String × PbValue)) →
    List (String × List (String × PbValue)) × Bool
  | self, [] => (self, true)
  | self, (schema, ext) :: rest =>
    match extMapMergeOne delete self schema ext with
    | (s1, true) => extMapMerge delete s1 rest
    | (s1, false) => (s1, false)

/-- The mutation `apply` performs on the fresh copy of the reposted claim:
deletions first (delete mode), then edits (add mode); the error flag is
`false` when a merge raised, with the partial state kept. -/
def applyMods (mod : ModRefV) (c : ClaimV) : ClaimV × Bool :=
  let d := extMapMerge true c.extensions mod.deletions
  if d.2 then
    let e := extMapMerge false d.1 mod.edits
    ({ c with extensions := e.1 }, e.2)
  else
    ({ c with extensions := d.1 }, false)

/-- `ModifyingClaimReference.apply(reposted)` over an explicit heap: when the
modification type is unset, differs from the reposted claim's type, or the
type is not stream, the reposted reference itself is returned and the heap is
untouched; otherwise a fresh cell is allocated holding a copy of the reposted
claim, the deletions and edits are applied to that cell, and its reference is
returned.  The result is the heap, the returned reference and the success
flag. -/
def ModifyingClaimReference.apply (mod : ModRefV) (heap : List ClaimV)
    (reposted : Nat) : List ClaimV × Nat × Bool :=
  match mod.modification_type with
  | none => (heap, reposted, true)
  | some t =>
    if t ≠ (heap.getD reposted default).claim_type then (heap, reposted, true)
    else if (heap.getD reposted default).claim_type ≠ ClaimType.stream then
      (heap, reposted, true)
    else
      ((heap ++ [(applyMods mod (heap.getD reposted default)).1], heap.length,
        (applyMods mod (heap.getD reposted default)).2))

theorem getD_append_left (l e : List ClaimV) (n : Nat) (h : n < l.length) :
    (l ++ e).getD n default = l.getD n default := by
  rw [List.getD_eq_getElem?_getD, List.getD_eq_getElem?_getD,
    List.getElem?_append_left h]

/-- C10: `apply` never mutates the reposted claim it is given: the heap cell
of the reposted claim is unchanged in every case (the stream/stream path
mutates only a freshly allocated copy, even when a merge raises), and whenever
the modification type is unset, mismatched, or not stream, the original
reference is returned with the heap untouched. -/
theorem c10_apply_preserves_reposted (mod : ModRefV) (heap : List ClaimV) (r : Nat)
    (hr : r < heap.length) :
    ((ModifyingClaimReference.apply mod heap r).1.getD r default =
      heap.getD r default) ∧
    ((mod.modification_type = none ∨
        mod.modification_type ≠ some (heap.getD r default).claim_type ∨
        (heap.getD r default).claim_type ≠ ClaimType.stream) →
      ModifyingClaimReference.apply mod heap r = (heap, r, true)) ∧
    (∀ t, mod.modification_type = some t →
      t = (heap.getD r default).claim_type →
      (heap.getD r default).claim_type = ClaimType.stream →
      ModifyingClaimReference.apply mod heap r =
        (heap ++ [(applyMods mod (heap.getD r default)).1], heap.length,
          (applyMods mod (heap.getD r default)).2)) := by
  refine ⟨?_, ?_, ?_⟩
  · cases hmt : mod.modification_type with
    | none =>
      simp only [ModifyingClaimReference.apply, hmt]
    | some t =>
      simp only [ModifyingClaimReference.apply, hmt]
      by_cases h1 : t ≠ (heap.getD r default).claim_type
      · rw [if_pos h1]
      · rw [if_neg h1]
        by_cases h2 : (heap.getD r default).claim_type ≠ ClaimType.stream
        · rw [if_pos h2]
        · rw [if_neg h2]
          exact getD_append_left heap _ r hr
  · intro hcond
    cases hmt : mod.modification_type with
    | none =>
      simp only [ModifyingClaimReference.apply, hmt]
    | some t =>
      simp only [ModifyingClaimReference.apply, hmt]
      rcases hcond with hnone | hne | hns
      · rw [hmt] at hnone
        simp at hnone
      · rw [hmt] at hne
        have h1 : t ≠ (heap.getD r default).claim_type := by
          intro h
          exact hne (by rw [h])
        rw [if_pos h1]
      · by_cases h1 : t ≠ (heap.getD r default).claim_type
        · rw [if_pos h1]
        · rw [if_neg h1, if_pos hns]
  · intro t hmt hty hstream
    simp only [ModifyingClaimReference.apply, hmt]
    rw [if_neg (by simpa using hty), if_neg (by simpa using hstream)]

/-- C10 witness: the preservation theorem at a one-claim heap with a stream
modification. -/
theorem c10_apply_preserves_reposted_witness :
    ((ModifyingClaimReference.apply
        ⟨some ClaimType.stream, [("s", [("a", PbValue.numV 1)])], []⟩
        [⟨ClaimType.stream, [("s", [("a", PbValue.numV 1)])]⟩] 0).1.getD 0 default =
      [⟨ClaimType.stream, [("s", [("a", PbValue.numV 1)])]⟩].getD 0 default) :=
  (c10_apply_preserves_reposted
    ⟨some ClaimType.stream, [("s", [("a", PbValue.numV 1)])], []⟩
    [⟨ClaimType.stream, [("s", [("a", PbValue.numV 1)])]⟩] 0 (by decide)).1
